import Mathlib

/-!
Verification of the source-patch engine in `everything-pdf`
(`remove-todos.py`, `add-wrapper-methods.py`, `integrate.py`,
`update-interface.py`).

Text buffers are modelled as `List Char` (Python `str`), line lists as
`List (List Char)` (Python `readlines()` output, line terminators kept).
Every definition below is a direct shallow embedding of the corresponding
Python code, translated statement by statement.
-/

namespace EverythingPdf

/-- The characters Python's `str.strip()` removes by default (ASCII part). -/
def pyIsSpace (c : Char) : Bool :=
  c = ' ' || c = '\t' || c = '\n' || c = '\x0d' || c = '\x0b' || c = '\x0c'

/-- Python `str.strip()`: drop leading and trailing whitespace. -/
def pyStrip (s : List Char) : List Char :=
  ((s.dropWhile pyIsSpace).reverse.dropWhile pyIsSpace).reverse

/-- The hard-coded marker of `remove-todos.py` line 68: `'TODO' in lines[idx]`. -/
def todoMarker : List Char := ['T', 'O', 'D', 'O']

/-- Python `readlines()` / `splitlines(keepends=True)`: split a buffer into
lines, each keeping its trailing newline; a last line without a newline is
kept as well. -/
def splitKeepEnds : List Char → List (List Char)
  | [] => []
  | c :: rest =>
    match splitKeepEnds rest with
    | [] => [[c]]
    | l :: ls => if c = '\n' then [c] :: l :: ls else (c :: l) :: ls

/-- Outcome of one deletion target, mirroring the branch taken by
`remove-todos.py` lines 64-70 (the spec's `Applied` / `Skipped` results). -/
inductive DelResult where
  | applied
  | skippedContentMismatch
  | skippedOutOfRange
  deriving DecidableEq, Repr

/-- One deletion target, `remove-todos.py` lines 64-69:
`idx = line_num - 1; if idx < len(lines): if 'TODO' in lines[idx] or
expected_content.strip() in lines[idx]: del lines[idx]`. -/
def delStep (lines : List (List Char)) (t : Nat × List Char) :
    List (List Char) × DelResult :=
  let idx := t.1 - 1
  if idx < lines.length then
    if todoMarker <:+: lines.getD idx [] ∨ pyStrip t.2 <:+: lines.getD idx [] then
      (lines.eraseIdx idx, DelResult.applied)
    else (lines, DelResult.skippedContentMismatch)
  else (lines, DelResult.skippedOutOfRange)

/-- Descending order on deletion targets: Python's
`sorted(todo_lines, reverse=True)` compares the `(line_num, content)`
tuples lexicographically and reverses the order. -/
def tgtDesc (a b : Nat × List Char) : Prop :=
  b.1 < a.1 ∨ (b.1 = a.1 ∧ b.2 ≤ a.2)

instance : DecidableRel tgtDesc := fun _ _ =>
  inferInstanceAs (Decidable (_ ∨ _))

instance : IsTotal (Nat × List Char) tgtDesc where
  total a b := by
    rcases Nat.lt_trichotomy a.1 b.1 with h | h | h
    · exact Or.inr (Or.inl h)
    · rcases le_total a.2 b.2 with h2 | h2
      · exact Or.inr (Or.inr ⟨h, h2⟩)
      · exact Or.inl (Or.inr ⟨h.symm, h2⟩)
    · exact Or.inl (Or.inl h)

instance : IsTrans (Nat × List Char) tgtDesc where
  trans a b c hab hbc := by
    rcases hab with h1 | ⟨e1, l1⟩
    · rcases hbc with h2 | ⟨e2, _⟩
      · exact Or.inl (h2.trans h1)
      · exact Or.inl (e2 ▸ h1)
    · rcases hbc with h2 | ⟨e2, l2⟩
      · exact Or.inl (e1 ▸ h2)
      · exact Or.inr ⟨e2.trans e1, l2.trans l1⟩

instance : IsAntisymm (Nat × List Char) tgtDesc where
  antisymm a b hab hba := by
    rcases hab with h1 | ⟨e1, l1⟩
    · rcases hba with h2 | ⟨e2, _⟩
      · exact absurd h1 (Nat.lt_asymm h2)
      · exact absurd h1 (e2 ▸ Nat.lt_irrefl _)
    · rcases hba with h2 | ⟨e2, l2⟩
      · exact absurd h2 (e1 ▸ Nat.lt_irrefl _)
      · exact Prod.ext e2 (le_antisymm l2 l1)

/-- Python `sorted(todo_lines, reverse=True)` (line 64): sort the targets
in descending tuple order. -/
def sortTargets (ts : List (Nat × List Char)) : List (Nat × List Char) :=
  List.insertionSort tgtDesc ts

/-- The deletion loop of `remove_todos` (lines 64-69): process the targets
in descending order, deleting each matching line. -/
def deleteLines (lines : List (List Char)) (ts : List (Nat × List Char)) :
    List (List Char) :=
  (sortTargets ts).foldl (fun ls t => (delStep ls t).1) lines

/-- Python `str.replace(pat, rep)`: one left-to-right pass replacing every
non-overlapping occurrence of `pat` by `rep`
(`update-interface.py` line 15, `remove-todos.py` line 77). -/
def replaceAll (pat rep : List Char) : List Char → List Char
  | [] => if pat.isEmpty then rep else []
  | c :: rest =>
    if pat.isEmpty then rep ++ c :: replaceAll pat rep rest
    else if pat.isPrefixOf (c :: rest) then
      rep ++ replaceAll pat rep ((c :: rest).drop pat.length)
    else c :: replaceAll pat rep rest
termination_by s => s.length
decreasing_by
  all_goals simp only [List.length_drop, List.length_cons]
  all_goals try omega
  all_goals
    have hp : 0 < pat.length := by
      cases pat with
      | nil => simp [List.isEmpty] at *
      | cons a l => simp
  all_goals omega

/-- The chunks of a buffer between the leftmost non-overlapping occurrences
of `pat`, in the same left-to-right scan as `replaceAll`. -/
def splitChunks (pat : List Char) : List Char → List (List Char)
  | [] => [[]]
  | c :: rest =>
    if pat.isEmpty then [[]]
    else if pat.isPrefixOf (c :: rest) then
      [] :: splitChunks pat ((c :: rest).drop pat.length)
    else
      match splitChunks pat rest with
      | [] => [[c]]
      | l :: ls => (c :: l) :: ls
termination_by s => s.length
decreasing_by
  · simp only [List.length_drop, List.length_cons]
    have hp : 0 < pat.length := by
      cases pat with
      | nil => simp [List.isEmpty] at *
      | cons a l => simp
    omega
  · simp

/-- The number of non-overlapping occurrences of `pat` replaced by the
left-to-right scan (Python `str.count` for a non-empty pattern). -/
def countOcc (pat : List Char) : List Char → Nat
  | [] => 0
  | c :: rest =>
    if pat.isEmpty then 0
    else if pat.isPrefixOf (c :: rest) then
      1 + countOcc pat ((c :: rest).drop pat.length)
    else countOcc pat rest
termination_by s => s.length
decreasing_by
  · simp only [List.length_drop, List.length_cons]
    have hp : 0 < pat.length := by
      cases pat with
      | nil => simp [List.isEmpty] at *
      | cons a l => simp
    omega
  · simp

/-- Join chunks with the replacement string between consecutive chunks. -/
def joinSep (rep : List Char) : List (List Char) → List Char
  | [] => []
  | [l] => l
  | l :: l' :: ls => l ++ rep ++ joinSep rep (l' :: ls)

/-- Outcome of the substitution step, mirroring the branch taken by
`remove-todos.py` lines 76-79 (the spec's `Applied` / `Skipped`). -/
inductive SubResult where
  | applied
  | skippedNotFound
  deriving DecidableEq, Repr

/-- The special-replacement step of `remove_todos` (lines 73-79): rejoin the
lines, replace the literal only if it occurs, and split again. -/
def applySpecial (lines : List (List Char)) (sr : List Char × List Char) :
    List (List Char) × SubResult :=
  let content := lines.flatten
  if sr.1 <:+: content then
    (splitKeepEnds (replaceAll sr.1 sr.2 content), SubResult.applied)
  else (lines, SubResult.skippedNotFound)

/-- `re.search` for a literal pattern, scanning from position `i`: the
anchor patterns of `add-wrapper-methods.py` (line 70) contain no
metacharacter besides the escaped brace, so the search is the leftmost
occurrence of the literal. -/
def locateAux (pat : List Char) : List Char → Nat → Option Nat
  | buf, i =>
    if pat.isPrefixOf buf then some i
    else
      match buf with
      | [] => none
      | _ :: rest => locateAux pat rest (i + 1)

/-- `locate(buffer, pattern)`: offset of the leftmost occurrence of the
literal anchor, or `none` when the anchor does not occur
(`match = re.search(pattern, content)`, `insert_pos = match.start()`). -/
def locate (pat buf : List Char) : Option Nat := locateAux pat buf 0

/-- The buffer splice of `add-wrapper-methods.py` line 76:
`content[:insert_pos] + new_methods + '\n' + content[insert_pos:]`. -/
def insertBeforeAW (buf ins : List Char) (off : Nat) : List Char :=
  buf.take off ++ ins ++ '\n' :: buf.drop off

/-- The buffer splice of `integrate.py` line 22:
`content[:insert_pos] + '\n' + new_methods + '\n' + content[insert_pos:]`. -/
def insertBeforeInt (buf ins : List Char) (off : Nat) : List Char :=
  buf.take off ++ '\n' :: (ins ++ '\n' :: buf.drop off)

/-- The anchor literal of `add-wrapper-methods.py` line 70,
`r'(\}\n\n// Export singleton instance)'` (the escape `\}` denotes a
literal brace). -/
def awAnchor : List Char := ("\x7d\n\n// Export singleton instance").data

/-- One anchored insertion run over an in-memory buffer, the shared shape of
`add-wrapper-methods.py` and `integrate.py` lines 70-91: resolve the anchor;
on success splice the content in and rewrite the file (`some w`), on failure
take the `else: print('ERROR: ...')` branch and write nothing (`none`). -/
def runInsertion (pat ins buf : List Char) : Option (List Char) :=
  match locate pat buf with
  | some off => some (insertBeforeAW buf ins off)
  | none => none

/-- The whole run of `add-wrapper-methods.py` over one in-memory buffer,
with its hard-coded anchor. -/
def addWrapperRun (ins buf : List Char) : Option (List Char) :=
  runInsertion awAnchor ins buf

/-- One entry of the `files_to_update` / `special_replacements` tables of
`remove-todos.py`: a file (named by a number), its deletion targets, and
its optional special replacement. -/
structure FileSpec where
  name : Nat
  targets : List (Nat × List Char)
  special : Option (List Char × List Char)

/-- The per-file body of `remove_todos` (lines 60-83): read lines, delete
the targets in descending order, apply the special replacement if any, and
rejoin the buffer that is written back. -/
def processContent (f : FileSpec) (content : List Char) : List Char :=
  let lines := deleteLines (splitKeepEnds content) f.targets
  let lines :=
    match f.special with
    | some sr => (applySpecial lines sr).1
    | none => lines
  lines.flatten

/-- The loop of `remove_todos` (lines 55-85) over a disk modelled as a map
from file names to contents: a missing file is skipped with a warning
(`continue`); an existing file is processed and written exactly once.
The result is the ordered list of writes performed. -/
def removeTodosRun (cfg : List FileSpec) (disk : Nat → Option (List Char)) :
    List (Nat × List Char) :=
  match cfg with
  | [] => []
  | f :: rest =>
    match disk f.name with
    | none => removeTodosRun rest disk
    | some c => (f.name, processContent f c) :: removeTodosRun rest disk

/-- A 10-line demonstration buffer (every line carries the TODO marker). -/
def demoLines : List (List Char) :=
  (List.range 10).map fun _ => ['T', 'O', 'D', 'O', '\n']

/-- C1: the deleter sorts its targets in descending `(lineNumber, fragment)`
order before processing (`sorted(todo_lines, reverse=True)`), so the final
line buffer is the same for any caller-supplied ordering of the same
targets: permuting the target list never changes the result. -/
theorem C1_deletion_order_independent (lines : List (List Char))
    (ts₁ ts₂ : List (Nat × List Char)) (h : ts₁.Perm ts₂) :
    deleteLines lines ts₁ = deleteLines lines ts₂ := by
  unfold deleteLines sortTargets
  have hs : List.insertionSort tgtDesc ts₁ = List.insertionSort tgtDesc ts₂ :=
    List.eq_of_perm_of_sorted
      ((List.perm_insertionSort tgtDesc ts₁).trans
        (h.trans (List.perm_insertionSort tgtDesc ts₂).symm))
      (List.sorted_insertionSort tgtDesc ts₁)
      (List.sorted_insertionSort tgtDesc ts₂)
  rw [hs]

/-- Witness for C1: deleting lines `[3, 7]` and `[7, 3]` from the same
10-line buffer produces identical results. -/
theorem C1_deletion_order_independent_witness :
    ([((3 : Nat), ([] : List Char)), (7, [])].Perm [(7, []), (3, [])]) ∧
    deleteLines demoLines [(3, []), (7, [])] =
      deleteLines demoLines [(7, []), (3, [])] :=
  ⟨by decide, C1_deletion_order_independent demoLines _ _ (by decide)⟩

/-- C4 fails as stated: the code compares the line against the
whitespace-stripped `expectedFragment` (`expected_content.strip()`), not
against `expectedFragment` itself.  With line `"ab\n"` and fragment
`"  ab  "`, neither `TODO` nor the raw fragment is a substring of the line,
yet the line is deleted (`Applied`), where the claim predicts
`Skipped("content mismatch")`. -/
theorem C4_content_guard_counterexample :
    ¬ todoMarker <:+: ['a', 'b', '\n'] ∧
    ¬ ([' ', ' ', 'a', 'b', ' ', ' '] : List Char) <:+: ['a', 'b', '\n'] ∧
    delStep [['a', 'b', '\n']] (1, [' ', ' ', 'a', 'b', ' ', ' ']) =
      ([], DelResult.applied) := by
  refine ⟨by decide, by decide, by decide⟩

/-- C4 (amended): for a target with `1 ≤ lineNumber`, if `lineNumber`
exceeds the line count the step is `Skipped("out of range")` and the lines
are unchanged; otherwise the line is deleted exactly when it contains the
`TODO` marker or the whitespace-stripped `expectedFragment` as a substring,
and is skipped (`content mismatch`) and kept otherwise. -/
theorem C4_content_guarded_deletion (lines : List (List Char)) (n : Nat)
    (frag : List Char) (h1 : 1 ≤ n) :
    (lines.length < n →
      delStep lines (n, frag) = (lines, DelResult.skippedOutOfRange)) ∧
    (n ≤ lines.length →
      ((todoMarker <:+: lines.getD (n - 1) [] ∨
          pyStrip frag <:+: lines.getD (n - 1) []) →
        delStep lines (n, frag) = (lines.eraseIdx (n - 1), DelResult.applied)) ∧
      (¬ (todoMarker <:+: lines.getD (n - 1) [] ∨
          pyStrip frag <:+: lines.getD (n - 1) []) →
        delStep lines (n, frag) = (lines, DelResult.skippedContentMismatch))) := by
  refine ⟨fun hlt => ?_, fun hle => ⟨fun hc => ?_, fun hc => ?_⟩⟩
  · have hni : ¬ (n - 1 < lines.length) := by omega
    simp only [delStep]
    rw [if_neg hni]
  · have hi : n - 1 < lines.length := by omega
    simp only [delStep]
    rw [if_pos hi, if_pos hc]
  · have hi : n - 1 < lines.length := by omega
    simp only [delStep]
    rw [if_pos hi, if_neg hc]

/-- Witness for C4 (amended): target line 2 of a one-line buffer is out of
range and skipped. -/
theorem C4_content_guarded_deletion_witness :
    1 ≤ 2 ∧
    delStep [['T', 'O', 'D', 'O', '\n']] (2, []) =
      ([['T', 'O', 'D', 'O', '\n']], DelResult.skippedOutOfRange) :=
  ⟨by decide,
    (C4_content_guarded_deletion [['T', 'O', 'D', 'O', '\n']] 2 [] (by decide)).1
      (by decide)⟩

/-- C10: for a 1-based target line number, the deletion step is total and
in-bounds: it either leaves the line list unchanged, or the index
`lineNumber - 1` is strictly inside the list and the step removes exactly
that entry (the length drops by one). -/
theorem C10_deletion_step_safe (lines : List (List Char))
    (t : Nat × List Char) (h : 1 ≤ t.1) :
    (delStep lines t).1 = lines ∨
    (t.1 - 1 < lines.length ∧
      (delStep lines t).1 = lines.eraseIdx (t.1 - 1) ∧
      (delStep lines t).1.length + 1 = lines.length) := by
  by_cases hi : t.1 - 1 < lines.length
  · by_cases hc : todoMarker <:+: lines.getD (t.1 - 1) [] ∨
        pyStrip t.2 <:+: lines.getD (t.1 - 1) []
    · right
      have he : (delStep lines t).1 = lines.eraseIdx (t.1 - 1) := by
        simp only [delStep]
        rw [if_pos hi, if_pos hc]
      refine ⟨hi, he, ?_⟩
      rw [he, List.length_eraseIdx, if_pos hi]
      omega
    · left
      simp only [delStep]
      rw [if_pos hi, if_neg hc]
  · left
    simp only [delStep]
    rw [if_neg hi]

/-- Witness for C10: deleting line 1 of a one-line TODO buffer removes
exactly that line. -/
theorem C10_deletion_step_safe_witness :
    1 ≤ 1 ∧
    ((delStep [['T', 'O', 'D', 'O', '\n']] (1, [])).1 = [['T', 'O', 'D', 'O', '\n']] ∨
    (1 - 1 < ([['T', 'O', 'D', 'O', '\n']] : List (List Char)).length ∧
      (delStep [['T', 'O', 'D', 'O', '\n']] (1, [])).1 =
        ([['T', 'O', 'D', 'O', '\n']] : List (List Char)).eraseIdx (1 - 1) ∧
      (delStep [['T', 'O', 'D', 'O', '\n']] (1, [])).1.length + 1 =
        ([['T', 'O', 'D', 'O', '\n']] : List (List Char)).length)) :=
  ⟨by decide, C10_deletion_step_safe [['T', 'O', 'D', 'O', '\n']] (1, []) (by decide)⟩

/-- Bridge from the boolean `List.isPrefixOf` used by the embeddings to the
`<+:` relation. -/
theorem prefix_of_isPrefixOf {l₁ l₂ : List Char}
    (h : l₁.isPrefixOf l₂ = true) : l₁ <+: l₂ :=
  List.isPrefixOf_iff_prefix.mp h

/-- Bridge to the boolean `List.isPrefixOf` from the `<+:` relation. -/
theorem isPrefixOf_intro {l₁ l₂ : List Char} (h : l₁ <+: l₂) :
    l₁.isPrefixOf l₂ = true :=
  List.isPrefixOf_iff_prefix.mpr h

/-- A buffer with no occurrence of the pattern is returned unchanged by the
replacement scan. -/
theorem replaceAll_absent (pat rep : List Char) :
    ∀ s, ¬ pat <:+: s → replaceAll pat rep s = s := by
  intro s
  induction s using replaceAll.induct pat rep with
  | case1 hemp =>
    intro h
    rw [List.isEmpty_iff] at hemp
    exact absurd (hemp ▸ List.infix_rfl) h
  | case2 hemp =>
    intro _
    simp [replaceAll, hemp]
  | case3 c rest hemp ih =>
    intro h
    rw [List.isEmpty_iff] at hemp
    exact absurd (hemp ▸ List.nil_infix) h
  | case4 c rest hemp hpre ih =>
    intro h
    exact absurd (prefix_of_isPrefixOf hpre).isInfix h
  | case5 c rest hemp hpre ih =>
    intro h
    have hr : ¬ pat <:+: rest := fun hx => h (List.infix_cons hx)
    simp [replaceAll, hemp, hpre, ih hr]

/-- C8: a substitution whose search literal does not occur leaves the buffer
unchanged (`content.replace` is the identity, so the written content equals
the original), and the guarded special replacement of `remove_todos` takes
its skip branch, leaving the lines untouched. -/
theorem C8_substitution_literal_not_found (s pat rep : List Char)
    (lines : List (List Char)) (sr : List Char × List Char) :
    (¬ pat <:+: s → replaceAll pat rep s = s) ∧
    (¬ sr.1 <:+: lines.flatten →
      applySpecial lines sr = (lines, SubResult.skippedNotFound)) := by
  refine ⟨replaceAll_absent pat rep s, fun h => ?_⟩
  simp only [applySpecial]
  rw [if_neg h]

/-- Witness for C8: `'z'` does not occur in buffer `"a"`; the replacement
returns the buffer unchanged and the guarded step reports a skip. -/
theorem C8_substitution_literal_not_found_witness :
    ¬ (['z'] : List Char) <:+: ['a'] ∧
    replaceAll ['z'] ['b'] ['a'] = ['a'] ∧
    applySpecial [['a']] (['z'], ['b']) = ([['a']], SubResult.skippedNotFound) :=
  ⟨by decide,
    (C8_substitution_literal_not_found ['a'] ['z'] ['b'] [['a']] (['z'], ['b'])).1
      (by decide),
    (C8_substitution_literal_not_found ['a'] ['z'] ['b'] [['a']] (['z'], ['b'])).2
      (by decide)⟩

/-- The chunk list produced by the replacement scan is never empty. -/
theorem splitChunks_ne_nil (pat : List Char) :
    ∀ s, splitChunks pat s ≠ [] := by
  intro s
  induction s using splitChunks.induct pat with
  | case1 => simp [splitChunks]
  | case2 c rest hemp => simp [splitChunks, hemp]
  | case3 c rest hemp hpre ih => simp [splitChunks, hemp, hpre]
  | case4 c rest hemp hpre heq ih => simp [splitChunks, hemp, hpre, heq]
  | case5 c rest hemp hpre l ls heq ih => simp [splitChunks, hemp, hpre, heq]

/-- The first chunk of the replacement scan is a prefix of the buffer. -/
theorem splitChunks_head_begins (pat : List Char) :
    ∀ s l ls, splitChunks pat s = l :: ls → l <+: s := by
  intro s
  induction s using splitChunks.induct pat with
  | case1 =>
    intro l ls h
    simp only [splitChunks] at h
    cases h
    exact List.nil_prefix
  | case2 c rest hemp =>
    intro l ls h
    simp only [splitChunks, if_pos hemp] at h
    cases h
    exact List.nil_prefix
  | case3 c rest hemp hpre ih =>
    intro l ls h
    simp only [splitChunks, if_neg hemp, if_pos hpre] at h
    cases h
    exact List.nil_prefix
  | case4 c rest hemp hpre heq ih =>
    intro l ls h
    simp only [splitChunks, if_neg hemp, if_pos hpre, if_neg hpre, heq] at h
    cases h
    exact ⟨rest, rfl⟩
  | case5 c rest hemp hpre l' ls' heq ih =>
    intro l ls h
    simp only [splitChunks, if_neg hemp, if_pos hpre, if_neg hpre, heq] at h
    obtain ⟨t, ht⟩ := ih l' ls' heq
    cases h
    exact ⟨t, by rw [List.cons_append, ht]⟩

/-- Joining a chunk list whose tail is nonempty puts one copy of the
separator after the first chunk. -/
theorem joinSep_cons (rep : List Char) (l : List Char)
    (rest : List (List Char)) (h : rest ≠ []) :
    joinSep rep (l :: rest) = l ++ rep ++ joinSep rep rest := by
  cases rest with
  | nil => exact absurd rfl h
  | cons l' ls => rfl

/-- C6 fails as stated: a replacement can create a fresh occurrence of the
search literal across the seam between the substituted text and the
following original text.  Buffer `"abb"`, search `"ab"`, replacement `"a"`:
`"a"` does not contain `"ab"`, yet `"abb".replace("ab", "a") = "ab"`, which
contains one occurrence of `"ab"`; and the count of `"a"` does not grow by
the prior count of `"ab"` (it stays 1 instead of becoming 2). -/
theorem C6_substitution_totality_counterexample :
    (['a', 'b'] : List Char) ≠ [] ∧
    ¬ (['a', 'b'] : List Char) <:+: ['a'] ∧
    replaceAll ['a', 'b'] ['a'] ['a', 'b', 'b'] = ['a', 'b'] ∧
    (['a', 'b'] : List Char) <:+: ['a', 'b'] ∧
    countOcc ['a', 'b'] ['a', 'b', 'b'] = 1 ∧
    countOcc ['a'] ['a', 'b', 'b'] = 1 ∧
    countOcc ['a'] ['a', 'b'] = 1 := by
  refine ⟨by decide, by decide, by simp [replaceAll], by decide,
    by simp [countOcc], by simp [countOcc], by simp [countOcc]⟩

/-- C6 (amended): the substitution replaces every non-overlapping
occurrence of the search literal in one left-to-right pass: the result is
the list of inter-occurrence chunks joined by the replacement, no chunk
contains the search literal, and the number of replacements equals the
prior non-overlapping occurrence count.  (Zero residual occurrences of the
literal in the joined result is not guaranteed, even when the replacement
does not contain the literal.) -/
theorem C6_substitution_one_pass (pat rep s : List Char) (hp : pat ≠ []) :
    replaceAll pat rep s = joinSep rep (splitChunks pat s) ∧
    (∀ c ∈ splitChunks pat s, ¬ pat <:+: c) ∧
    (splitChunks pat s).length = countOcc pat s + 1 := by
  induction s using splitChunks.induct pat with
  | case1 =>
    have hemp : ¬ pat.isEmpty = true := by simpa [List.isEmpty_iff] using hp
    refine ⟨by simp [replaceAll, splitChunks, hemp, joinSep], ?_, by
      simp [splitChunks, countOcc]⟩
    intro c hc
    simp only [splitChunks, List.mem_singleton] at hc
    subst hc
    rw [List.infix_nil]
    exact hp
  | case2 c rest hemp =>
    rw [List.isEmpty_iff] at hemp
    exact absurd hemp hp
  | case3 c rest hemp hpre ih =>
    obtain ⟨ih1, ih2, ih3⟩ := ih
    have hne := splitChunks_ne_nil pat (List.drop pat.length (c :: rest))
    refine ⟨?_, ?_, ?_⟩
    · rw [show splitChunks pat (c :: rest) =
          [] :: splitChunks pat (List.drop pat.length (c :: rest)) by
            simp [splitChunks, hemp, hpre]]
      rw [joinSep_cons rep [] _ hne, ← ih1]
      simp [replaceAll, hemp, hpre]
    · intro x hx
      simp only [show splitChunks pat (c :: rest) =
          [] :: splitChunks pat (List.drop pat.length (c :: rest)) by
            simp [splitChunks, hemp, hpre], List.mem_cons] at hx
      rcases hx with hx | hx
      · subst hx; rw [List.infix_nil]; exact hp
      · exact ih2 x hx
    · rw [show splitChunks pat (c :: rest) =
          [] :: splitChunks pat (List.drop pat.length (c :: rest)) by
            simp [splitChunks, hemp, hpre]]
      simp only [List.length_cons, ih3]
      have : countOcc pat (c :: rest) =
          1 + countOcc pat (List.drop pat.length (c :: rest)) := by
        simp [countOcc, hemp, hpre]
      omega
  | case4 c rest hemp hpre heq ih =>
    exact absurd heq (splitChunks_ne_nil pat rest)
  | case5 c rest hemp hpre l ls heq ih =>
    obtain ⟨ih1, ih2, ih3⟩ := ih
    have hstep : splitChunks pat (c :: rest) = (c :: l) :: ls := by
      simp [splitChunks, hemp, hpre, heq]
    refine ⟨?_, ?_, ?_⟩
    · rw [hstep]
      have hjoin : joinSep rep ((c :: l) :: ls) = c :: joinSep rep (l :: ls) := by
        cases ls with
        | nil => rfl
        | cons x xs => simp [joinSep]
      rw [hjoin, ← heq, ← ih1]
      simp [replaceAll, hemp, hpre]
    · intro x hx
      rw [hstep] at hx
      simp only [List.mem_cons] at hx
      rcases hx with hx | hx
      · subst hx
        intro hinf
        rcases List.infix_cons_iff.mp hinf with hpf | hinf'
        · obtain ⟨t, ht⟩ := splitChunks_head_begins pat rest l ls heq
          have : pat <+: c :: rest := by
            refine hpf.trans ⟨t, ?_⟩
            rw [List.cons_append, ht]
          exact hpre (isPrefixOf_intro this)
        · exact ih2 l (heq ▸ List.mem_cons_self l ls) hinf'
      · exact ih2 x (heq ▸ List.mem_cons_of_mem l hx)
    · rw [hstep]
      have hcount : countOcc pat (c :: rest) = countOcc pat rest := by
        simp [countOcc, hemp, hpre]
      rw [hcount, ← ih3, heq]
      simp

/-- Witness for C6 (amended): replacing `"b"` by `"z"` in `"aba"` yields the
chunks `["a", "a"]` joined by `"z"`, with one replacement performed. -/
theorem C6_substitution_one_pass_witness :
    (['b'] : List Char) ≠ [] ∧
    replaceAll ['b'] ['z'] ['a', 'b', 'a'] = joinSep ['z'] (splitChunks ['b'] ['a', 'b', 'a']) ∧
    (splitChunks ['b'] ['a', 'b', 'a']).length = countOcc ['b'] ['a', 'b', 'a'] + 1 :=
  ⟨by decide,
    (C6_substitution_one_pass ['b'] ['z'] ['a', 'b', 'a'] (by decide)).1,
    (C6_substitution_one_pass ['b'] ['z'] ['a', 'b', 'a'] (by decide)).2.2⟩

/-- Soundness and minimality of the literal scan: a hit is an occurrence,
lies within the buffer, and no earlier position is an occurrence. -/
theorem locateAux_some (pat : List Char) :
    ∀ buf i k, locateAux pat buf i = some k →
      i ≤ k ∧ k - i ≤ buf.length ∧ pat <+: buf.drop (k - i) ∧
      ∀ j < k - i, ¬ pat <+: buf.drop j := by
  intro buf
  induction buf with
  | nil =>
    intro i k h
    simp only [locateAux] at h
    by_cases hpre : pat.isPrefixOf ([] : List Char)
    · rw [if_pos hpre] at h
      cases h
      refine ⟨Nat.le_refl _, by simp, ?_, ?_⟩
      · simpa using prefix_of_isPrefixOf hpre
      · intro j hj; omega
    · rw [if_neg hpre] at h
      cases h
  | cons c rest ih =>
    intro i k h
    simp only [locateAux] at h
    by_cases hpre : pat.isPrefixOf (c :: rest)
    · rw [if_pos hpre] at h
      cases h
      refine ⟨Nat.le_refl _, by simp, ?_, ?_⟩
      · simpa using prefix_of_isPrefixOf hpre
      · intro j hj; omega
    · rw [if_neg hpre] at h
      obtain ⟨h1, h2, h3, h4⟩ := ih (i + 1) k h
      have hk : i + 1 ≤ k := h1
      refine ⟨by omega, by simp; omega, ?_, ?_⟩
      · have : (c :: rest).drop (k - i) = rest.drop (k - (i + 1)) := by
          have : k - i = (k - (i + 1)) + 1 := by omega
          rw [this, List.drop_succ_cons]
        rw [this]
        exact h3
      · intro j hj
        cases j with
        | zero =>
          simpa using fun hx => hpre (isPrefixOf_intro hx)
        | succ j' =>
          rw [List.drop_succ_cons]
          exact h4 j' (by omega)

/-- Completeness of the literal scan: a miss means no suffix position of the
buffer starts with the pattern. -/
theorem locateAux_none (pat : List Char) :
    ∀ buf i, locateAux pat buf i = none → ∀ j, ¬ pat <+: buf.drop j := by
  intro buf
  induction buf with
  | nil =>
    intro i h j
    simp only [locateAux] at h
    by_cases hpre : pat.isPrefixOf ([] : List Char)
    · rw [if_pos hpre] at h; cases h
    · rw [if_neg hpre] at h
      simpa using fun hx => hpre (isPrefixOf_intro hx)
  | cons c rest ih =>
    intro i h j
    simp only [locateAux] at h
    by_cases hpre : pat.isPrefixOf (c :: rest)
    · rw [if_pos hpre] at h; cases h
    · rw [if_neg hpre] at h
      cases j with
      | zero =>
        simpa using fun hx => hpre (isPrefixOf_intro hx)
      | succ j' =>
        rw [List.drop_succ_cons]
        exact ih (i + 1) h j'

/-- A pattern is an infix of a buffer exactly when it is a prefix of some
suffix of the buffer. -/
theorem infix_iff_prefix_drop (pat buf : List Char) :
    pat <:+: buf ↔ ∃ j, pat <+: buf.drop j := by
  constructor
  · rintro ⟨s, t, hst⟩
    refine ⟨s.length, ?_⟩
    rw [← hst, List.append_assoc, List.drop_left]
    exact ⟨t, rfl⟩
  · rintro ⟨j, hj⟩
    exact hj.isInfix.trans (List.drop_suffix j buf).isInfix

/-- C3: anchor resolution via the literal scan of `re.search`: a `none`
result means the anchor occurs nowhere (and then `add-wrapper-methods.py`
takes its error branch and performs no write, leaving the file unmodified);
a `some` result is the offset of an occurrence and no smaller offset is one,
so with several occurrences the first in document order is selected, and
with exactly one occurrence that occurrence's offset is returned. -/
theorem C3_anchor_resolution (pat buf : List Char) :
    (locate pat buf = none ↔ ¬ pat <:+: buf) ∧
    (∀ k, locate pat buf = some k →
      pat <+: buf.drop k ∧ ∀ j, pat <+: buf.drop j → k ≤ j) ∧
    (∀ ins, locate awAnchor buf = none → addWrapperRun ins buf = none) := by
  refine ⟨⟨fun h => ?_, fun h => ?_⟩, fun k hk => ?_, fun ins h => ?_⟩
  · rw [infix_iff_prefix_drop]
    rintro ⟨j, hj⟩
    exact locateAux_none pat buf 0 h j hj
  · cases hl : locate pat buf with
    | none => rfl
    | some k =>
      obtain ⟨_, _, h3, _⟩ := locateAux_some pat buf 0 k hl
      exact absurd (h3.isInfix.trans (List.drop_suffix _ buf).isInfix) h
  · obtain ⟨h1, h2, h3, h4⟩ := locateAux_some pat buf 0 k hk
    refine ⟨by simpa using h3, fun j hj => ?_⟩
    by_contra hlt
    exact h4 j (by omega) hj
  · simp only [addWrapperRun, runInsertion, h]

/-- Witness for C3: in buffer `"abab"` the pattern `"b"` occurs at offsets
1 and 3; `locate` returns the first, offset 1, and it is an occurrence. -/
theorem C3_anchor_resolution_witness :
    locate ['b'] ['a', 'b', 'a', 'b'] = some 1 ∧
    (['b'] <+: List.drop 1 ['a', 'b', 'a', 'b']) :=
  ⟨by decide,
    ((C3_anchor_resolution ['b'] ['a', 'b', 'a', 'b']).2.1 1 (by decide)).1⟩

/-- C5: the `Before` insertion splice: the result is
`buffer[0:offset] ++ inserted ++ buffer[offset:]` with exactly one newline
appended between the inserted payload and the following original text; the
prefix before the offset and the suffix after the splice are untouched, and
the character at the seam is the ensured newline.  `integrate.py`
additionally pads a newline before the payload. -/
theorem C5_insertion_splice (buf ins : List Char) (off : Nat)
    (h : off ≤ buf.length) :
    insertBeforeAW buf ins off =
      buf.take off ++ (ins ++ ['\n']) ++ buf.drop off ∧
    (insertBeforeAW buf ins off).take off = buf.take off ∧
    (insertBeforeAW buf ins off).drop (off + (ins.length + 1)) = buf.drop off ∧
    (insertBeforeAW buf ins off)[off + ins.length]? = some '\n' ∧
    insertBeforeInt buf ins off =
      buf.take off ++ (('\n' :: ins) ++ ['\n']) ++ buf.drop off := by
  have hlen : (buf.take off).length = off := by
    rw [List.length_take]; omega
  refine ⟨by simp [insertBeforeAW], ?_, ?_, ?_, by simp [insertBeforeInt]⟩
  · have hshape : insertBeforeAW buf ins off =
        buf.take off ++ (ins ++ '\n' :: buf.drop off) := by
      simp [insertBeforeAW]
    rw [hshape, List.take_append_of_le_length (by omega)]
    simp [List.take_take]
  · have hshape : insertBeforeAW buf ins off =
        (buf.take off ++ ins ++ ['\n']) ++ buf.drop off := by
      simp [insertBeforeAW]
    rw [hshape, List.drop_left' (by
      simp only [List.length_append, List.length_cons, List.length_nil, hlen]
      omega)]
  · have hshape : insertBeforeAW buf ins off =
        (buf.take off ++ ins) ++ '\n' :: buf.drop off := by
      simp [insertBeforeAW]
    rw [hshape, List.getElem?_append_right (by simp [hlen])]
    simp [hlen]

/-- Witness for C5: inserting `"x"` at offset 1 of `"ab"`. -/
theorem C5_insertion_splice_witness :
    1 ≤ (['a', 'b'] : List Char).length ∧
    insertBeforeAW ['a', 'b'] ['x'] 1 =
      List.take 1 ['a', 'b'] ++ (['x'] ++ ['\n']) ++ List.drop 1 ['a', 'b'] :=
  ⟨by decide, (C5_insertion_splice ['a', 'b'] ['x'] 1 (by decide)).1⟩

/-- C7: insertion is not idempotent.  If one run inserted the content and
the anchor still matches the patched buffer at some offset, re-running the
same insertion succeeds again: it splices a second copy of the content at
the new anchor offset (the content sits at that offset, followed by the
ensured newline), and the buffer grows by `|content| + 1` a second time. -/
theorem C7_insertion_not_idempotent (pat ins buf b : List Char)
    (h1 : runInsertion pat ins buf = some b) (off2 : Nat)
    (h2 : locate pat b = some off2) :
    runInsertion pat ins b = some (insertBeforeAW b ins off2) ∧
    ins <+: (insertBeforeAW b ins off2).drop off2 ∧
    (insertBeforeAW b ins off2).length = b.length + (ins.length + 1) ∧
    b.length = buf.length + (ins.length + 1) := by
  have hoff2 : off2 ≤ b.length := by
    have := (locateAux_some pat b 0 off2 h2).2.1
    omega
  have hoff2' : (b.take off2).length = off2 := by
    rw [List.length_take]; omega
  obtain ⟨off1, hoff1eq, hb⟩ :
      ∃ off1, locate pat buf = some off1 ∧ b = insertBeforeAW buf ins off1 := by
    simp only [runInsertion] at h1
    cases hl : locate pat buf with
    | none => rw [hl] at h1; cases h1
    | some o => rw [hl] at h1; exact ⟨o, rfl, (Option.some_inj.mp h1).symm⟩
  have hoff1 : off1 ≤ buf.length := by
    have := (locateAux_some pat buf 0 off1 hoff1eq).2.1
    omega
  refine ⟨?_, ?_, ?_, ?_⟩
  · simp only [runInsertion, h2]
  · have hshape : insertBeforeAW b ins off2 =
        b.take off2 ++ (ins ++ '\n' :: b.drop off2) := by
      simp [insertBeforeAW]
    rw [hshape, List.drop_left' hoff2']
    exact ⟨'\n' :: b.drop off2, rfl⟩
  · simp only [insertBeforeAW, List.length_append, List.length_cons,
      List.length_take, List.length_drop]
    omega
  · rw [hb]
    simp only [insertBeforeAW, List.length_append, List.length_cons,
      List.length_take, List.length_drop]
    omega

/-- Witness for C7: buffer `"z"`, anchor `"z"`, content `"m"`.  The first
run yields `"m\nz"`; the anchor still matches at offset 2, and the second
run splices the content again. -/
theorem C7_insertion_not_idempotent_witness :
    runInsertion ['z'] ['m'] ['z'] = some ['m', '\n', 'z'] ∧
    locate ['z'] ['m', '\n', 'z'] = some 2 ∧
    runInsertion ['z'] ['m'] ['m', '\n', 'z'] =
      some (insertBeforeAW ['m', '\n', 'z'] ['m'] 2) :=
  ⟨by decide, by decide,
    (C7_insertion_not_idempotent ['z'] ['m'] ['z'] ['m', '\n', 'z']
      (by decide) 2 (by decide)).1⟩

/-- C2 fails as stated: in `add-wrapper-methods.py` a failed anchor
resolution takes the `else` branch, which performs **no** write at all
(`addWrapperRun = none`), so a run whose one operation fails does not end
with "exactly one write of the final buffer". -/
theorem C2_write_even_on_failure_counterexample :
    (addWrapperRun ['m'] ['x']).isSome = false := by decide

/-- C2 (amended): `remove_todos` performs exactly one write per existing
file, whatever the operations did; the insertion scripts write exactly when
the anchor resolved, and an anchor failure suppresses the write (leaving
the file bytes unchanged, since nothing was modified). -/
theorem C2_single_write_policy :
    (∀ (f : FileSpec) (c : List Char) (disk : Nat → Option (List Char)),
      disk f.name = some c →
        removeTodosRun [f] disk = [(f.name, processContent f c)]) ∧
    (∀ ins buf, (addWrapperRun ins buf).isSome ↔
      (locate awAnchor buf).isSome) := by
  constructor
  · intro f c disk h
    simp [removeTodosRun, h]
  · intro ins buf
    simp only [addWrapperRun, runInsertion]
    cases locate awAnchor buf <;> simp

/-- Witness for C2 (amended): a file with no targets and no special
replacement still gets its single write back. -/
theorem C2_single_write_policy_witness :
    (fun _ => some ([] : List Char)) (0 : Nat) = some ([] : List Char) ∧
    removeTodosRun [⟨0, [], none⟩] (fun _ => some []) =
      [(0, processContent ⟨0, [], none⟩ [])] :=
  ⟨rfl, C2_single_write_policy.1 ⟨0, [], none⟩ [] (fun _ => some []) rfl⟩

/-- C9 fails as stated: a missing file does not abort the run.
`remove_todos` (lines 56-58) prints a warning and `continue`s: with file 0
missing and file 1 present, the run still processes and writes file 1. -/
theorem C9_missing_file_counterexample :
    (fun n => if n = 0 then (none : Option (List Char)) else some ['T']) 0 =
      none ∧
    removeTodosRun [⟨0, [], none⟩, ⟨1, [], none⟩]
      (fun n => if n = 0 then (none : Option (List Char)) else some ['T']) =
      [(1, ['T'])] := by
  exact ⟨rfl, rfl⟩

/-- C9 (amended): a missing file is skipped — no write for it, no abort, no
retry: the run writes back exactly the existing files of the configuration,
each processed once, in order. -/
theorem C9_missing_file_skipped (cfg : List FileSpec)
    (disk : Nat → Option (List Char)) :
    removeTodosRun cfg disk =
      cfg.filterMap
        (fun f => (disk f.name).map fun c => (f.name, processContent f c)) := by
  induction cfg with
  | nil => rfl
  | cons f rest ih =>
    cases h : disk f.name with
    | none => simp [removeTodosRun, List.filterMap_cons, h, ih]
    | some c => simp [removeTodosRun, List.filterMap_cons, h, ih]

end EverythingPdf
